import Mathlib

/-!
Verification of the green-utils parallel-runtime utility layer: a shallow
embedding, in Lean, of the node-aware partition arithmetic of
`shared_object::assign_ptr` (mpi_shared.h), the communicator-topology
derivation of `setup_communicators` / `setup_internode_communicator` /
`setup_devices_communicator` (mpi_utils.cpp), the `allreduce` helper
(mpi_utils.h), the move-only window ownership of `shared_object`
(mpi_shared.h), and the event-timing profiler `timing` with its
tree-shape synchronization `sync_events` (timing.h).

Modelling conventions:
 - machine integers (`size_t`, `int`) become `Nat` / `Int`;
 - wall-clock values (`double` from `MPI_Wtime`) become `Rat`: the claims
   under study concern which arithmetic update is applied, never rounding;
 - an MPI communicator of `P` processes is `Fin P`, ranks ordered as the
   split keys order them (every split in the source keys by global rank);
 - `std::map` / `std::unordered_map` of events become association lists in
   iteration order; insertion position is abstracted as appending, which
   preserves lookups and entry counts (all the claims consume);
 - throwing functions return `Except`.
-/

namespace GreenUtils

/-! ## Partition arithmetic of shared_object::assign_ptr (mpi_shared.h)

The source computes
  `_local_size = _size / _cntx.node_size;`
  `_local_size += ((_size % _cntx.node_size) > _cntx.node_rank) ? 1 : 0;`
with `_size : size_t` and nonnegative `node_size`, `node_rank`. -/

/-- Per-process local partition size, as `shared_object::assign_ptr` computes
it from the logical element count, the node-communicator size and the
node-local rank. -/
def local_size (size node_size node_rank : ℕ) : ℕ :=
  size / node_size + (if size % node_size > node_rank then 1 else 0)

/-! ## Communicator topology (mpi_utils.cpp)

A world of `P` processes is `Fin P`; `node : Fin P → ℕ` sends each process
to its shared-memory domain, embodying `MPI_Comm_split_type(...,
MPI_COMM_TYPE_SHARED, global_rank, ...)`.  Both splits in the source key by
global rank, so a sub-communicator ranks its members by global rank. -/

/-- Rank of `p` inside its shared-memory (intranode) communicator: the number
of same-node processes with smaller global rank. -/
def intranode_rank {P : ℕ} (node : Fin P → ℕ) (p : Fin P) : ℕ :=
  (Finset.univ.filter fun q => node q = node p ∧ q < p).card

/-- Size of the shared-memory (intranode) communicator of `p`. -/
def intranode_size {P : ℕ} (node : Fin P → ℕ) (p : Fin P) : ℕ :=
  (Finset.univ.filter fun q => node q = node p).card

/-- Cross-node rank as `setup_internode_communicator` leaves it: processes
with intranode rank 0 split into the internode communicator (color
`intranode_rank = 0`, key global rank); every other process passes
`MPI_UNDEFINED` and is assigned the sentinel `-1`. -/
def internode_rank_split {P : ℕ} (node : Fin P → ℕ) (p : Fin P) : ℤ :=
  if intranode_rank node p = 0 then
    ((Finset.univ.filter fun q => intranode_rank node q = 0 ∧ q < p).card : ℤ)
  else -1

/-- Cross-node size as `setup_internode_communicator` leaves it: the number
of intranode-rank-0 processes for members, the sentinel `-1` for others. -/
def internode_size_split {P : ℕ} (node : Fin P → ℕ) (p : Fin P) : ℤ :=
  if intranode_rank node p = 0 then
    ((Finset.univ.filter fun q => intranode_rank node q = 0).card : ℤ)
  else -1

/-- The process of `p`'s node with the smallest global rank.  Since the
shared-memory split keys by global rank, this is rank 0 of `p`'s intranode
communicator — the root of the two `MPI_Bcast(..., 0, intranode_comm)` calls
at the end of `setup_communicators`. -/
def node_leader {P : ℕ} (node : Fin P → ℕ) (p : Fin P) : Fin P :=
  (Finset.univ.filter fun q => node q = node p).min'
    ⟨p, Finset.mem_filter.mpr ⟨Finset.mem_univ p, rfl⟩⟩

/-- The value of `internode_rank` a process holds after `setup_communicators`
returns: the split value computed at intranode rank 0, broadcast to the whole
node over the intranode communicator. -/
def setup_communicators_internode_rank {P : ℕ} (node : Fin P → ℕ) (p : Fin P) : ℤ :=
  internode_rank_split node (node_leader node p)

/-- The value of `internode_size` a process holds after `setup_communicators`
returns: the split value computed at intranode rank 0, broadcast to the whole
node over the intranode communicator. -/
def setup_communicators_internode_size {P : ℕ} (node : Fin P → ℕ) (p : Fin P) : ℤ :=
  internode_size_split node (node_leader node p)

/-! ## Device communicator (setup_devices_communicator, mpi_utils.cpp) -/

/-- Number of processes joining the devices split: those whose intranode rank
is below `devCount_per_node` (the source compares `int` values; intranode
ranks are nonnegative). -/
def devices_size {P : ℕ} (nr : Fin P → ℕ) (devCount_per_node : ℤ) : ℕ :=
  (Finset.univ.filter fun q => (nr q : ℤ) < devCount_per_node).card

/-- Rank of a joining process inside the devices communicator (all joiners
use color 0 and key by global rank). -/
def devices_rank {P : ℕ} (nr : Fin P → ℕ) (devCount_per_node : ℤ) (p : Fin P) : ℕ :=
  (Finset.univ.filter fun q => (nr q : ℤ) < devCount_per_node ∧ q < p).card

/-- Outcome of `setup_devices_communicator` at process `p`, whose intranode
rank is `nr p`: joiners obtain their devices rank and size but throw
`mpi_communicator_error` when the communicator size differs from
`devCount_total`; every other process passes `MPI_UNDEFINED` and receives the
sentinel `(-1, -1)` without any check. -/
def setup_devices_communicator {P : ℕ} (nr : Fin P → ℕ)
    (devCount_per_node devCount_total : ℤ) (p : Fin P) : Except String (ℤ × ℤ) :=
  if (nr p : ℤ) < devCount_per_node then
    if (devices_size nr devCount_per_node : ℤ) ≠ devCount_total then
      .error "Number of devices mismatches size of devices communicator."
    else .ok ((devices_rank nr devCount_per_node p : ℤ), (devices_size nr devCount_per_node : ℤ))
  else .ok (-1, -1)

/-! ## The allreduce helper (mpi_utils.h)

`allreduce(in, inout, count, dt, op, comm)` reduces to rank 0 and broadcasts
back.  The pointer relationship between `in` and `inout` is one of three
cases, which the source distinguishes by pointer comparison. Buffers are
abstracted to one value of an arbitrary type `β` (covering any element
count), a rank's buffers to functions `Fin P → β`. -/

/-- The relationship between the `in` and `inout` arguments of `allreduce`:
`in = MPI_IN_PLACE`, `in == inout` (aliased), or two distinct buffers. -/
inductive reduce_arg : Type where
  | in_place : reduce_arg
  | aliased : reduce_arg
  | separate : reduce_arg

/-- Reduction of all ranks' contributions in rank order, as `MPI_Reduce`
combines them; `dflt` is returned for an empty communicator. -/
def rank_fold {β : Type} (P : ℕ) (contrib : Fin P → β) (op : β → β → β) (dflt : β) : β :=
  match List.ofFn contrib with
  | [] => dflt
  | x :: xs => xs.foldl op x

/-- Model of `MPI_Reduce(..., root = 0)`: rank 0's receive buffer gets the reduction
of every rank's contribution; no other rank's buffer is written (the MPI
receive buffer is significant only at the root). -/
def mpi_reduce_to_root {β : Type} (P : ℕ) (contrib : Fin P → β) (op : β → β → β)
    (buf : Fin P → β) : Fin P → β :=
  fun r => if (r : ℕ) = 0 then rank_fold P contrib op (buf r) else buf r

/-- Model of `MPI_Bcast(..., root = 0)`: every rank's buffer becomes rank 0's. -/
def mpi_bcast_from_root {β : Type} (P : ℕ) (buf : Fin P → β) : Fin P → β :=
  fun r => buf ⟨0, Nat.lt_of_le_of_lt (Nat.zero_le _) r.isLt⟩

/-- The `allreduce` helper: per the source, rank 0 reduces with
`in_ptr = MPI_IN_PLACE` when `in == inout` or `in == MPI_IN_PLACE` (its
contribution is then its `inout` buffer) and with `in_ptr = in` otherwise;
a nonzero rank contributes `inout` when `in == MPI_IN_PLACE` and `in`
otherwise (for aliased buffers those coincide, so the aliased case tracks the
single buffer `out`).  The reduction lands in rank 0's `inout` and is then
broadcast from rank 0. -/
def allreduce {β : Type} (P : ℕ) (mode : reduce_arg) (inp out : Fin P → β)
    (op : β → β → β) : Fin P → β :=
  let contrib : Fin P → β := fun r =>
    match mode with
    | .separate => inp r
    | .in_place => out r
    | .aliased => out r
  mpi_bcast_from_root P (mpi_reduce_to_root P contrib op out)

/-- A true all-reduce, following the spec's words: every rank's output buffer
equals the reduction of all ranks' input buffers (the input buffer of rank
`q` being its `inout` contents when `in` is the in-place marker or aliases
`inout`, and `in` otherwise). -/
def allreduce_spec {β : Type} (P : ℕ) (mode : reduce_arg) (inp out : Fin P → β)
    (op : β → β → β) : Fin P → β :=
  fun r =>
    rank_fold P
      (fun q => match mode with
        | .separate => inp q
        | .in_place => out q
        | .aliased => out q)
      op (out r)

/-! ## The timing profiler (timing.h)

`event_t` holds a start timestamp, a duration, an active flag, an accumulate
flag and a name-keyed map of owned children; the parent back-pointer of the
source is represented by the node's path from the root, so it needs no field.
The two-argument constructor `event_t(double, double)` leaves `accumulate`
uninitialized; it is modelled as `false` and is never read before being
assigned by `start`. -/

/-- A timed-event node of the profiler (source struct `event_t`). -/
inductive event_t : Type where
  | mk (start duration : ℚ) (active accumulate : Bool)
       (children : List (String × event_t))

/-- Start timestamp of an event node. -/
def event_t.start : event_t → ℚ
  | .mk s _ _ _ _ => s

/-- Recorded duration of an event node. -/
def event_t.duration : event_t → ℚ
  | .mk _ d _ _ _ => d

/-- Active flag of an event node. -/
def event_t.active : event_t → Bool
  | .mk _ _ a _ _ => a

/-- Accumulate flag of an event node. -/
def event_t.accumulate : event_t → Bool
  | .mk _ _ _ a _ => a

/-- Children map of an event node, in iteration order. -/
def event_t.children : event_t → List (String × event_t)
  | .mk _ _ _ _ c => c

/-- The constructor call `event_t(s, d)` of the source: inactive, no
children (`accumulate` is left uninitialized there; `false` here). -/
def event_t.ctor2 (s d : ℚ) : event_t := .mk s d false false []

/-- A name-keyed event map (`std::map` / `std::unordered_map` of the source)
in iteration order. -/
abbrev event_map : Type := List (String × event_t)

/-- Lookup `events.find(name)`: the first entry named `n`, if any. -/
def find_event (n : String) : event_map → Option event_t
  | [] => none
  | (m, e) :: r => if n = m then some e else find_event n r

/-- Children of the entry named `n`, or the empty map when `n` is absent
(the freshly created stand-in of `sync_events` starts with no children). -/
def children_of (n : String) (f : event_map) : event_map :=
  match find_event n f with
  | some e => e.children
  | none => []

/-- Replace the children of the entry named `n`, creating the entry as the
zero-duration node `event_t(0, 0)` when it is absent (the
`events[name] = std::make_unique<event_t>(0, 0)` insertion of
`sync_events`). -/
def set_children (n : String) (c : event_map) : event_map → event_map
  | [] => [(n, .mk 0 0 false false c)]
  | (m, e) :: r =>
    if n = m then (m, .mk e.start e.duration e.active e.accumulate c) :: r
    else (m, e) :: set_children n c r

/-- Effect of `timing::sync_events(comm, events)` on one process's map
`loc`, driven by the authority map `auth` of rank 0 of `comm`: rank 0
broadcasts its entry count, then per entry its name (rank 0 iterates its own
map, so its own map is `auth` and its names are found); a process lacking a
broadcast name inserts the zero-duration node `event_t(0, 0)` under it, and
the protocol recurses into that entry's children against the authority
entry's children before moving to the next name. -/
def sync_events : event_map → event_map → event_map
  | [], loc => loc
  | (n, .mk _ _ _ _ ac) :: rest, loc =>
    sync_events rest (set_children n (sync_events ac (children_of n loc)) loc)

/-- Number of MPI collective calls `print_event(comm, ...)` issues for the
entries of a local children map: per entry, the two `MPI_Bcast` of
`get_name` plus the calls of the recursive `print_event` on it.  The loop
bound is the LOCAL `event.children.size()`, not a broadcast value. -/
def print_event_collectives_entries : event_map → ℕ
  | [] => 0
  | (_, .mk _ _ _ _ ac) :: rest =>
    (2 + (3 + print_event_collectives_entries ac)) + print_event_collectives_entries rest

/-- Number of MPI collective calls `print_event(comm, rank, size, ...)`
issues on a process whose local node is `e`: three `MPI_Reduce` for
max/min/sum, then its local children loop. -/
def print_event_collectives (e : event_t) : ℕ :=
  3 + print_event_collectives_entries e.children

/-! ### Profiler state and operations (class `timing`) -/

/-- Mutable state of a `timing` object: the root event map and the path of
`_current_event` from its root (`[]` models the null pointer). -/
structure timing_state : Type where
  root_events : event_map
  current_event : List String

/-- The empty profiler. -/
def timing_state.init : timing_state := ⟨[], []⟩

/-- Node at a path of nonempty names, following children maps. -/
def get_at : List String → event_map → Option event_t
  | [], _ => none
  | [n], f => find_event n f
  | n :: m :: rest, f =>
    match find_event n f with
    | none => none
    | some e => get_at (m :: rest) e.children

/-- Apply `g` to the entry named `n`, if present. -/
def modify_entry (n : String) (g : event_t → event_t) : event_map → event_map
  | [] => []
  | (m, e) :: r => if n = m then (m, g e) :: r else (m, e) :: modify_entry n g r

/-- Replace the entry named `n` by `v`, if present. -/
def replace_entry (n : String) (v : event_t) : event_map → event_map
  | [] => []
  | (m, e) :: r => if n = m then (m, v) :: r else (m, e) :: replace_entry n v r

/-- Apply `g` to the node at a path, leaving the map unchanged when the path
is absent. -/
def update_at : List String → (event_t → event_t) → event_map → event_map
  | [], _, f => f
  | [n], g, f => modify_entry n g f
  | n :: m :: rest, g, f =>
    match find_event n f with
    | none => f
    | some e =>
      replace_entry n
        (.mk e.start e.duration e.active e.accumulate (update_at (m :: rest) g e.children)) f

/-- The `if (map[name] == nullptr) map[name] = make_unique<event_t>(0, 0)`
idiom: keep the map when `n` is present, append the zero node otherwise. -/
def ensure_event (n : String) (f : event_map) : event_map :=
  if (find_event n f).isSome then f else f ++ [(n, event_t.ctor2 0 0)]

namespace timing

/-- Operation `timing::add(name)`: register a root event as `event_t(0.0, 0.0)` if
absent; idempotent, touches nothing else. -/
def add (name : String) (s : timing_state) : timing_state :=
  { s with root_events := ensure_event name s.root_events }

/-- Field update performed by `timing::start` on the node being started:
`accumulate = acc; active = true; start = now` (duration and children kept). -/
def start_node (now : ℚ) (acc : Bool) (e : event_t) : event_t :=
  .mk now e.duration true acc e.children

/-- Operation `timing::start(name, accumulate)` at wall-clock `now`.  `debug` models
the `#ifndef NDEBUG` build flag: in debug builds the call throws
`wrong_event_state` when the ROOT map holds an active entry named `name`
(whatever node would actually be started).  Otherwise: with no current event
the root entry is created if absent and started; with a current event the
child entry under it is created if absent and started; `_current_event`
moves to the started node. -/
def start (now : ℚ) (name : String) (acc : Bool) (debug : Bool) (s : timing_state) :
    Except Unit timing_state :=
  if debug && ((find_event name s.root_events).elim false event_t.active) then .error ()
  else
    match s.current_event with
    | [] =>
      let roots := modify_entry name (start_node now acc) (ensure_event name s.root_events)
      .ok { root_events := roots, current_event := [name] }
    | c =>
      let roots :=
        update_at c
          (fun e => .mk e.start e.duration e.active e.accumulate
            (modify_entry name (start_node now acc) (ensure_event name e.children)))
          s.root_events
      .ok { root_events := roots, current_event := c ++ [name] }

/-- Field update performed by `timing::end` on the current node: elapsed
time is added to the duration when `accumulate` is set and overwrites it
otherwise; the node becomes inactive. -/
def end_node (now : ℚ) (e : event_t) : event_t :=
  .mk e.start (if e.accumulate then e.duration + (now - e.start) else now - e.start)
    false e.accumulate e.children

/-- Operation `timing::end()` at wall-clock `now` (named `end_event` because `end` is
reserved in Lean): a no-op when `_current_event` is null; otherwise updates
the current node via `end_node` and repositions `_current_event` to its
parent — the path shortened by one, `[]` (null) when it was a root. -/
def end_event (now : ℚ) (s : timing_state) : timing_state :=
  match s.current_event with
  | [] => s
  | c =>
    { root_events := update_at c (end_node now) s.root_events, current_event := c.dropLast }

/-- Operation `timing::event(name)`: the ROOT entry named `name` when one exists
(regardless of any active event); otherwise, with a current event, the child
entry under it (created as `event_t(0, 0)` if absent); otherwise a fresh
root entry `event_t(0.0, 0.0)`.  Returns the path of the returned handle
together with the updated state. -/
def event (name : String) (s : timing_state) : List String × timing_state :=
  if (find_event name s.root_events).isSome then ([name], s)
  else
    match s.current_event with
    | [] => ([name], { s with root_events := s.root_events ++ [(name, event_t.ctor2 0 0)] })
    | c =>
      let roots :=
        update_at c
          (fun e => .mk e.start e.duration e.active e.accumulate
            (ensure_event name e.children))
          s.root_events
      (c ++ [name], { s with root_events := roots })

end timing

/-! ## Move-only window ownership of shared_object (mpi_shared.h)

A world of segment objects: slot `i` holds `some w` when segment `i`'s
`_win` is window `w`, `none` when `_win == MPI_WIN_NULL` (the moved-from /
destroyed sentinel).  The operation language holds exactly the special
members the class affords — move construction, move assignment and the
destructor; the copy constructor and copy assignment are `= delete`d in the
source, so no copy operation exists here. -/

/-- One special-member call on the world of `shared_object`s. -/
inductive seg_op : Type where
  | move_construct (src : ℕ) : seg_op
  | move_assign (src dst : ℕ) : seg_op
  | destruct (i : ℕ) : seg_op

/-- State of all segments and the multiset (as a list) of freed windows. -/
structure seg_world : Type where
  segs : List (Option ℕ)
  freed : List ℕ

/-- Semantics of one special-member call, per the source:
move construction copies `rhs._win` into the new object then nulls
`rhs._win`; move assignment overwrites `_win` with `rhs._win` (without
freeing the previous one) then nulls `rhs._win`; the destructor calls
`MPI_Win_free(&_win)` exactly when `_win != MPI_WIN_NULL`. -/
def seg_step (w : seg_world) : seg_op → seg_world
  | .move_construct src =>
    { segs := (w.segs.set src none) ++ [w.segs.getD src none], freed := w.freed }
  | .move_assign src dst =>
    { segs := (w.segs.set dst (w.segs.getD src none)).set src none, freed := w.freed }
  | .destruct i =>
    match w.segs.getD i none with
    | some win => { segs := w.segs.set i none, freed := w.freed ++ [win] }
    | none => w

/-- Occurrence count of a window value among segment slots. -/
def count_opt (a : Option ℕ) : List (Option ℕ) → ℕ
  | [] => 0
  | x :: r => (if x = a then 1 else 0) + count_opt a r

/-- Occurrence count of a window in the freed list. -/
def count_nat (a : ℕ) : List ℕ → ℕ
  | [] => 0
  | x :: r => (if x = a then 1 else 0) + count_nat a r

/-- Number of live segments owning window `win`. -/
def owners (w : seg_world) (win : ℕ) : ℕ := count_opt (some win) w.segs

/-- Number of times window `win` has been freed. -/
def freed_count (w : seg_world) (win : ℕ) : ℕ := count_nat win w.freed

/-! # Theorems -/

/-! ## Helper lemmas for the partition arithmetic -/

/-- Summing the indicator of `r < m` over `r < n` counts `m` when `m ≤ n`. -/
theorem sum_indicator_lt (n m : ℕ) (h : m ≤ n) :
    (∑ r ∈ Finset.range n, if r < m then 1 else 0) = m := by
  induction n with
  | zero =>
    have hm : m = 0 := by omega
    subst hm
    simp
  | succ k ih =>
    rw [Finset.sum_range_succ]
    rcases Nat.lt_or_ge m (k + 1) with hk | hk
    · have h1 : ¬ k < m := by omega
      rw [ih (by omega), if_neg h1]
      omega
    · have hm : m = k + 1 := by omega
      subst hm
      have : (∑ r ∈ Finset.range k, if r < k + 1 then 1 else 0) =
          ∑ r ∈ Finset.range k, 1 := by
        refine Finset.sum_congr rfl fun r hr => ?_
        rw [if_pos (by exact Nat.lt_succ_of_lt (Finset.mem_range.mp hr))]
      rw [this]
      simp

/-- C1.  The per-process local partition size of `shared_object::assign_ptr`
equals `floor(logicalSize / node_size) + 1` exactly when
`logicalSize mod node_size > node_rank`; the local sizes of ranks
`0 .. node_size - 1` sum to `logicalSize`; and any two local sizes differ by
at most one. -/
theorem C1_local_size_partition (size node_size : ℕ) (h : 0 < node_size) :
    (∀ node_rank : ℕ,
        local_size size node_size node_rank = size / node_size + 1 ↔
          size % node_size > node_rank) ∧
    (∑ r ∈ Finset.range node_size, local_size size node_size r = size) ∧
    (∀ r1 r2 : ℕ, local_size size node_size r1 ≤ local_size size node_size r2 + 1) := by
  refine ⟨fun node_rank => ?_, ?_, fun r1 r2 => ?_⟩
  · unfold local_size
    split
    · simpa using by assumption
    · constructor
      · intro he
        omega
      · intro hc
        exact absurd hc (by assumption)
  · unfold local_size
    rw [Finset.sum_add_distrib, Finset.sum_const, Finset.card_range, smul_eq_mul]
    have hm : size % node_size ≤ node_size := le_of_lt (Nat.mod_lt _ h)
    have : (∑ r ∈ Finset.range node_size, if size % node_size > r then 1 else 0) =
        size % node_size := sum_indicator_lt _ _ hm
    rw [this]
    exact Nat.div_add_mod size node_size
  · unfold local_size
    split <;> split <;> omega

/-- Witness for C1 at `logicalSize = 10`, `node_size = 3`: the three local
sizes `4, 3, 3` sum to `10`. -/
theorem C1_local_size_partition_witness :
    ∑ r ∈ Finset.range 3, local_size 10 3 r = 10 :=
  (C1_local_size_partition 10 3 (by norm_num)).2.1

/-! ## Helper lemmas for the topology -/

/-- The node leader belongs to `p`'s node. -/
theorem node_leader_same_node {P : ℕ} (node : Fin P → ℕ) (p : Fin P) :
    node (node_leader node p) = node p := by
  have := Finset.min'_mem (Finset.univ.filter fun q => node q = node p)
    ⟨p, Finset.mem_filter.mpr ⟨Finset.mem_univ p, rfl⟩⟩
  exact (Finset.mem_filter.mp this).2

/-- The node leader is the least global rank of `p`'s node. -/
theorem node_leader_le {P : ℕ} (node : Fin P → ℕ) (p q : Fin P)
    (hq : node q = node p) : node_leader node p ≤ q :=
  Finset.min'_le _ _ (Finset.mem_filter.mpr ⟨Finset.mem_univ q, hq⟩)

/-- The node leader has intranode rank 0: it is rank 0 of the intranode
communicator, hence the root of the broadcasts in `setup_communicators`. -/
theorem intranode_rank_node_leader {P : ℕ} (node : Fin P → ℕ) (p : Fin P) :
    intranode_rank node (node_leader node p) = 0 := by
  unfold intranode_rank
  rw [Finset.card_eq_zero, Finset.filter_eq_empty_iff]
  intro q _
  rintro ⟨hsame, hlt⟩
  have : node_leader node p ≤ q :=
    node_leader_le node p q (hsame.trans (node_leader_same_node node p))
  exact absurd hlt (not_lt.mpr this)

/-- A process of intranode rank 0 is its own node's leader. -/
theorem eq_node_leader_of_intranode_rank_zero {P : ℕ} (node : Fin P → ℕ) (q : Fin P)
    (h : intranode_rank node q = 0) : q = node_leader node q := by
  by_contra hne
  have hle : node_leader node q ≤ q := node_leader_le node q q rfl
  have hlt : node_leader node q < q := lt_of_le_of_ne hle (Ne.symm hne)
  have hmem : node_leader node q ∈
      Finset.univ.filter fun r => node r = node q ∧ r < q :=
    Finset.mem_filter.mpr ⟨Finset.mem_univ _, node_leader_same_node node q, hlt⟩
  have : 0 < intranode_rank node q := Finset.card_pos.mpr ⟨_, hmem⟩
  omega

/-- C2 counterexample.  Two processes on one node: process 1 has nonzero
node-local rank, yet after `setup_communicators` (which broadcasts the node
leader's values over the intranode communicator) its cross-node rank is `0`
and its cross-node size is `1` — not the claimed `(-1, -1)`.  The sentinel
exists only before the broadcast, in `setup_internode_communicator`. -/
theorem C2_counterexample_internode_not_sentinel :
    intranode_rank (fun _ => 0 : Fin 2 → ℕ) 1 ≠ 0 ∧
    setup_communicators_internode_rank (fun _ => 0 : Fin 2 → ℕ) 1 = 0 ∧
    setup_communicators_internode_size (fun _ => 0 : Fin 2 → ℕ) 1 = 1 := by decide

/-- C2 (amended).  After `setup_communicators`: inside the split step
(`setup_internode_communicator` semantics) a nonzero-node-rank process is
assigned `(-1, -1)` and exactly the node-rank-0 processes obtain a
nonnegative cross-node rank; but the closing broadcasts replace every
process's values by those of its node leader — the node's intranode-rank-0
process — so every process ends with a nonnegative cross-node rank and with
the number of node leaders as its cross-node size. -/
theorem C2_setup_communicators_internode (P : ℕ) (node : Fin P → ℕ) (p : Fin P) :
    (intranode_rank node p ≠ 0 →
      internode_rank_split node p = -1 ∧ internode_size_split node p = -1) ∧
    (0 ≤ internode_rank_split node p ↔ intranode_rank node p = 0) ∧
    intranode_rank node (node_leader node p) = 0 ∧
    node (node_leader node p) = node p ∧
    setup_communicators_internode_rank node p =
      internode_rank_split node (node_leader node p) ∧
    0 ≤ setup_communicators_internode_rank node p ∧
    setup_communicators_internode_size node p =
      ((Finset.univ.filter fun q => intranode_rank node q = 0).card : ℤ) := by
  refine ⟨fun h => ?_, ?_, intranode_rank_node_leader node p,
    node_leader_same_node node p, rfl, ?_, ?_⟩
  · unfold internode_rank_split internode_size_split
    rw [if_neg h, if_neg h]
    exact ⟨rfl, rfl⟩
  · unfold internode_rank_split
    split
    · constructor
      · intro _
        assumption
      · intro _
        positivity
    · constructor
      · intro hge
        omega
      · intro hc
        exact absurd hc (by assumption)
  · unfold setup_communicators_internode_rank internode_rank_split
    rw [if_pos (intranode_rank_node_leader node p)]
    positivity
  · unfold setup_communicators_internode_size internode_size_split
    rw [if_pos (intranode_rank_node_leader node p)]

/-- C9 counterexample.  With `countPerNode = 0` no process joins the devices
split, so the size check is never executed: here the joining group has size
`0 ≠ 1 = countTotal`, yet the call fails nowhere — the lone process simply
receives the sentinel `(-1, -1)`. -/
theorem C9_counterexample_no_join_no_check :
    devices_size (fun _ => 0 : Fin 1 → ℕ) 0 = 0 ∧ (0 : ℤ) ≠ 1 ∧
    setup_devices_communicator (fun _ => 0 : Fin 1 → ℕ) 0 1 0 = .ok (-1, -1) := by
  refine ⟨by decide, by decide, ?_⟩
  simp [setup_devices_communicator]

/-- C9 (amended).  A `deviceGroup(countPerNode, countTotal)` request joins
exactly the processes of node-local rank below `countPerNode`; every joining
process — and only joining processes — fails with the device-size-mismatch
error when the joining group's size differs from `countTotal` (in particular,
if no process joins the mismatch goes unchecked); every non-joining process
receives the sentinel `(-1, -1)`; and a joiner's device rank lies below the
device group size. -/
theorem C9_setup_devices_communicator (P : ℕ) (nr : Fin P → ℕ)
    (cpn ctotal : ℤ) (p : Fin P) :
    ((nr p : ℤ) < cpn → (devices_size nr cpn : ℤ) = ctotal →
      setup_devices_communicator nr cpn ctotal p =
        .ok ((devices_rank nr cpn p : ℤ), (devices_size nr cpn : ℤ))) ∧
    ((nr p : ℤ) < cpn → (devices_size nr cpn : ℤ) ≠ ctotal →
      setup_devices_communicator nr cpn ctotal p =
        .error "Number of devices mismatches size of devices communicator.") ∧
    (¬ (nr p : ℤ) < cpn → setup_devices_communicator nr cpn ctotal p = .ok (-1, -1)) ∧
    ((nr p : ℤ) < cpn → devices_rank nr cpn p < devices_size nr cpn) := by
  refine ⟨fun hj hs => ?_, fun hj hs => ?_, fun hn => ?_, fun hj => ?_⟩
  · unfold setup_devices_communicator
    rw [if_pos hj, if_neg (by omega)]
  · unfold setup_devices_communicator
    rw [if_pos hj, if_pos hs]
  · unfold setup_devices_communicator
    rw [if_neg hn]
  · unfold devices_rank devices_size
    refine Finset.card_lt_card ?_
    constructor
    · intro q hq
      rcases Finset.mem_filter.mp hq with ⟨hu, hjq, _⟩
      exact Finset.mem_filter.mpr ⟨hu, hjq⟩
    · intro hsub
      have hp : p ∈ Finset.univ.filter fun q => (nr q : ℤ) < cpn :=
        Finset.mem_filter.mpr ⟨Finset.mem_univ p, hj⟩
      have := Finset.mem_filter.mp (hsub hp)
      exact absurd this.2.2 (lt_irrefl p)

/-- Witness for C9 at one process of node rank `0`, `countPerNode = 1`,
`countTotal = 1`: the process joins and obtains rank 0 of a size-1 group. -/
theorem C9_setup_devices_communicator_witness :
    setup_devices_communicator (fun _ => 0 : Fin 1 → ℕ) 1 1 0 = .ok (0, 1) := by
  have h := (C9_setup_devices_communicator 1 (fun _ => 0) 1 1 0).1 (by decide) (by decide)
  simpa using h

/-- C10.  The `allreduce` helper — a reduce of every rank's contribution to
rank 0 followed by a broadcast of rank 0's buffer — leaves every rank's
output buffer equal to the rank-ordered reduction of all ranks' input
buffers, in each of the three argument modes (`MPI_IN_PLACE`, aliased
buffers, distinct buffers): it is observably a true all-reduce. -/
theorem C10_allreduce_is_allreduce {β : Type} (P : ℕ) (hP : 0 < P)
    (mode : reduce_arg) (inp out : Fin P → β) (op : β → β → β) :
    allreduce P mode inp out op = allreduce_spec P mode inp out op := by
  funext r
  obtain ⟨k, rfl⟩ : ∃ k, P = k + 1 := ⟨P - 1, by omega⟩
  unfold allreduce allreduce_spec mpi_bcast_from_root mpi_reduce_to_root rank_fold
  simp only [List.ofFn_succ]
  simp

/-- Witness for C10: two ranks summing distinct integer buffers `3` and `4`;
every rank ends with `7`. -/
theorem C10_allreduce_is_allreduce_witness :
    allreduce 2 .separate (fun r => if r = 0 then (3 : ℤ) else 4) (fun _ => 0)
        (fun a b => a + b) =
      allreduce_spec 2 .separate (fun r => if r = 0 then (3 : ℤ) else 4) (fun _ => 0)
        (fun a b => a + b) :=
  C10_allreduce_is_allreduce 2 (by norm_num) .separate _ _ _

/-! ## Helper lemmas for event maps -/

/-- Lookup of an absent key. -/
theorem find_event_eq_none_of_not_mem_keys (n : String) (f : event_map)
    (h : n ∉ f.map Prod.fst) : find_event n f = none := by
  induction f with
  | nil => rfl
  | cons hd tl ih =>
    obtain ⟨m, e⟩ := hd
    simp only [List.map_cons, List.mem_cons] at h
    push_neg at h
    simp only [find_event, if_neg h.1]
    exact ih h.2

/-- Lookup after `set_children` at the same key. -/
theorem find_event_set_children_self (n : String) (c : event_map) (loc : event_map) :
    find_event n (set_children n c loc) =
      some (match find_event n loc with
        | some e => event_t.mk e.start e.duration e.active e.accumulate c
        | none => event_t.mk 0 0 false false c) := by
  induction loc with
  | nil => simp [set_children, find_event]
  | cons hd tl ih =>
    obtain ⟨m, e⟩ := hd
    by_cases hm : n = m
    · subst hm
      simp [set_children, find_event]
    · simp [set_children, find_event, hm, ih]

/-- Lookup after `set_children` at another key. -/
theorem find_event_set_children_other (n m : String) (c : event_map) (loc : event_map)
    (h : n ≠ m) :
    find_event n (set_children m c loc) = find_event n loc := by
  induction loc with
  | nil => simp [set_children, find_event, h]
  | cons hd tl ih =>
    obtain ⟨k, e⟩ := hd
    by_cases hk : m = k
    · subst hk
      simp [set_children, find_event, h]
    · by_cases hn : n = k
      · subst hn
        simp [set_children, find_event, hk, Ne.symm hk]
      · simp [set_children, find_event, hk, hn, ih]

/-- C3.  The shape synchronization of the global report: for a non-authority
process with local map `loc`, driven by the authority map `auth` (whose keys,
coming from a `std::map`, are distinct), `sync_events` leaves entries whose
name rank 0 never broadcasts untouched; for every broadcast name it either
keeps the local node (data intact) and recursively synchronizes its children
against the authority entry's children, or — when the local tree lacks the
name — creates a zero-duration, inactive stand-in node under that name whose
children are then the recursive synchronization against an empty map. -/
theorem C3_sync_events_stand_in (auth loc : event_map) (n : String)
    (hnd : (auth.map Prod.fst).Nodup) :
    (find_event n auth = none →
      find_event n (sync_events auth loc) = find_event n loc) ∧
    (∀ a, find_event n auth = some a → find_event n loc = none →
      find_event n (sync_events auth loc) =
        some (event_t.mk 0 0 false false (sync_events a.children []))) ∧
    (∀ a e, find_event n auth = some a → find_event n loc = some e →
      find_event n (sync_events auth loc) =
        some (event_t.mk e.start e.duration e.active e.accumulate
          (sync_events a.children e.children))) := by
  induction auth generalizing loc with
  | nil =>
    refine ⟨fun _ => ?_, fun a ha => ?_, fun a e ha => ?_⟩
    · simp [sync_events]
    · exact absurd ha (by simp [find_event])
    · exact absurd ha (by simp [find_event])
  | cons hd rest ih =>
    obtain ⟨m, b⟩ := hd
    obtain ⟨bs, bd, bact, bacc, bc⟩ := b
    simp only [List.map_cons, List.nodup_cons] at hnd
    obtain ⟨hm_out, hnd_rest⟩ := hnd
    have hrest_none : find_event m rest = none :=
      find_event_eq_none_of_not_mem_keys m rest hm_out
    by_cases hn : n = m
    · subst hn
      refine ⟨fun hnone => ?_, fun a ha hlocnone => ?_, fun a e ha hloc => ?_⟩
      · exact absurd hnone (by simp [find_event])
      · have ha' : event_t.mk bs bd bact bacc bc = a := by
          simpa [find_event] using ha
        subst ha'
        simp only [sync_events]
        rw [(ih _ hnd_rest).1 hrest_none, find_event_set_children_self]
        have hch : children_of n loc = [] := by simp [children_of, hlocnone]
        rw [hch]
        simp [hlocnone, event_t.children]
      · have ha' : event_t.mk bs bd bact bacc bc = a := by
          simpa [find_event] using ha
        subst ha'
        simp only [sync_events]
        rw [(ih _ hnd_rest).1 hrest_none, find_event_set_children_self]
        have hch : children_of n loc = e.children := by simp [children_of, hloc]
        rw [hch]
        simp [hloc, event_t.children]
    · have hfind : find_event n ((m, event_t.mk bs bd bact bacc bc) :: rest) =
          find_event n rest := by simp [find_event, hn]
      have hX : find_event n
          (set_children m (sync_events bc (children_of m loc)) loc) =
            find_event n loc :=
        find_event_set_children_other n m _ loc hn
      refine ⟨fun hnone => ?_, fun a ha hlocnone => ?_, fun a e ha hloc => ?_⟩
      · simp only [sync_events]
        rw [(ih _ hnd_rest).1 (by rw [← hfind]; exact hnone), hX]
      · simp only [sync_events]
        exact (ih _ hnd_rest).2.1 a (by rw [← hfind]; exact ha)
          (by rw [hX]; exact hlocnone)
      · simp only [sync_events]
        exact (ih _ hnd_rest).2.2 a e (by rw [← hfind]; exact ha)
          (by rw [hX]; exact hloc)


/-- Witness for C3: the authority holds one event `A`; a process with an
empty local tree ends up with a zero-duration stand-in node named `A`. -/
theorem C3_sync_events_stand_in_witness :
    find_event "A" (sync_events [("A", event_t.mk 1 5 false false [])] []) =
      some (event_t.mk 0 0 false false []) := by
  have h := (C3_sync_events_stand_in [("A", event_t.mk 1 5 false false [])] [] "A"
    (by simp)).2.1 (event_t.mk 1 5 false false []) (by simp [find_event]) rfl
  simpa [sync_events, event_t.children] using h

/-- C4 counterexample.  Divergent trees: the authority (rank 0) visited only
`A`; a peer also has `B` nested under `A`.  The shape synchronization leaves
the authority's tree unchanged — in particular the authority gains NO
zero-duration stand-in for the peer's branch `B` (`sync_events` broadcasts
only the authority's names; the source comments that the root core is assumed
to hold all events) — while the peer keeps `B` locally; the reduction phase
of `print_event` then loops over the LOCAL `children.size()`, issuing 3
collective calls on the authority against 8 attempted on the peer, so the
collectives cannot pair up and the report does not complete. -/
theorem C4_counterexample_authority_lacks_stand_in :
    sync_events [("A", event_t.mk 1 5 false false [])]
        [("A", event_t.mk 1 5 false false [])] =
      [("A", event_t.mk 1 5 false false [])] ∧
    children_of "A"
        (sync_events [("A", event_t.mk 1 5 false false [])]
          [("A", event_t.mk 1 5 false false [])]) = [] ∧
    sync_events [("A", event_t.mk 1 5 false false [])]
        [("A", event_t.mk 2 7 false false [("B", event_t.mk 3 4 false false [])])] =
      [("A", event_t.mk 2 7 false false [("B", event_t.mk 3 4 false false [])])] ∧
    print_event_collectives (event_t.mk 1 5 false false []) = 3 ∧
    print_event_collectives
        (event_t.mk 2 7 false false [("B", event_t.mk 3 4 false false [])]) = 8 := by
  refine ⟨?_, ?_, ?_, ?_, ?_⟩ <;>
    simp [sync_events, set_children, children_of, find_event, event_t.children,
      event_t.start, event_t.duration, event_t.active, event_t.accumulate,
      print_event_collectives, print_event_collectives_entries]

/-- C4 (amended).  The tree shape of the global report is driven by the
authority alone.  In the supported direction — the authority holds the
superset — a peer lacking `B` under `A` gains a zero-duration stand-in for it
and both processes issue the same number of collective calls in the
reduction phase.  In the claimed direction — a peer holds `B` under `A` and
the authority does not — the authority's tree is unchanged (no stand-in
appears on it) and the per-process collective-call counts of the reduction
phase differ (3 against 8), which is the collective mismatch behind the
deadlock the claim rules out. -/
theorem C4_sync_events_authority_driven :
    sync_events
        [("A", event_t.mk 1 5 false false [("B", event_t.mk 3 4 false false [])])]
        [("A", event_t.mk 2 7 false false [])] =
      [("A", event_t.mk 2 7 false false [("B", event_t.mk 0 0 false false [])])] ∧
    print_event_collectives
        (event_t.mk 1 5 false false [("B", event_t.mk 3 4 false false [])]) =
      print_event_collectives
        (event_t.mk 2 7 false false [("B", event_t.mk 0 0 false false [])]) ∧
    print_event_collectives (event_t.mk 1 5 false false []) ≠
      print_event_collectives
        (event_t.mk 2 7 false false [("B", event_t.mk 3 4 false false [])]) := by
  refine ⟨?_, ?_, ?_⟩ <;>
    simp [sync_events, set_children, children_of, find_event, event_t.children,
      event_t.start, event_t.duration, event_t.active, event_t.accumulate,
      print_event_collectives, print_event_collectives_entries]

/-! ## Helper lemmas for the profiler state -/

/-- Lookup after `modify_entry` at the same key. -/
theorem find_event_modify_self (n : String) (g : event_t → event_t) (f : event_map) :
    find_event n (modify_entry n g f) = (find_event n f).map g := by
  induction f with
  | nil => simp [modify_entry, find_event]
  | cons hd tl ih =>
    obtain ⟨m, e⟩ := hd
    by_cases hm : n = m
    · subst hm
      simp [modify_entry, find_event]
    · simp [modify_entry, find_event, hm, ih]

/-- Lookup after `modify_entry` at another key. -/
theorem find_event_modify_other (n m : String) (g : event_t → event_t) (f : event_map)
    (h : n ≠ m) :
    find_event n (modify_entry m g f) = find_event n f := by
  induction f with
  | nil => simp [modify_entry, find_event]
  | cons hd tl ih =>
    obtain ⟨k, e⟩ := hd
    by_cases hk : m = k
    · subst hk
      simp [modify_entry, find_event, h]
    · by_cases hn : n = k
      · subst hn
        simp [modify_entry, find_event, hk, Ne.symm hk]
      · simp [modify_entry, find_event, hk, hn, ih]

/-- Lookup after `replace_entry` at the same key. -/
theorem find_event_replace_self (n : String) (v : event_t) (f : event_map) :
    find_event n (replace_entry n v f) = (find_event n f).map fun _ => v := by
  induction f with
  | nil => simp [replace_entry, find_event]
  | cons hd tl ih =>
    obtain ⟨m, e⟩ := hd
    by_cases hm : n = m
    · subst hm
      simp [replace_entry, find_event]
    · simp [replace_entry, find_event, hm, ih]

/-- Lookup after appending entries. -/
theorem find_event_append (n : String) (f g : event_map) :
    find_event n (f ++ g) =
      match find_event n f with
      | some e => some e
      | none => find_event n g := by
  induction f with
  | nil => simp [find_event]
  | cons hd tl ih =>
    obtain ⟨m, e⟩ := hd
    by_cases hm : n = m
    · subst hm
      simp [find_event]
    · simp [find_event, hm, ih]

/-- Lookup after `ensure_event` at the ensured key: the previous entry, or
the freshly created `event_t(0, 0)`. -/
theorem find_event_ensure_self (n : String) (f : event_map) :
    find_event n (ensure_event n f) =
      some ((find_event n f).getD (event_t.ctor2 0 0)) := by
  unfold ensure_event
  cases hf : find_event n f with
  | some e => simp [hf]
  | none => simp [hf, find_event_append, find_event]

/-- Reading a path through an updated path: `get_at` after `update_at` at the
same path applies the update to the node found there. -/
theorem get_at_update_at (p : List String) (g : event_t → event_t) (f : event_map) :
    get_at p (update_at p g f) = (get_at p f).map g := by
  induction p generalizing f with
  | nil => simp [get_at, update_at]
  | cons n tl ih =>
    cases tl with
    | nil => simp [get_at, update_at, find_event_modify_self]
    | cons m rest =>
      simp only [update_at]
      cases hf : find_event n f with
      | none => simp [get_at, hf]
      | some e =>
        simp only [get_at, find_event_replace_self, hf, Option.map_some]
        exact ih e.children

/-- Reading one step past a nonempty path: the final lookup happens in the
children of the node at the path. -/
theorem get_at_append_one (c : List String) (n : String) (f : event_map)
    (hc : c ≠ []) :
    get_at (c ++ [n]) f =
      match get_at c f with
      | some e => find_event n e.children
      | none => none := by
  induction c generalizing f with
  | nil => exact absurd rfl hc
  | cons x tl ih =>
    cases tl with
    | nil =>
      simp only [List.cons_append, List.nil_append, get_at]
      cases hf : find_event x f with
      | none => rfl
      | some e => rfl
    | cons y rest =>
      simp only [List.cons_append, get_at]
      cases hf : find_event x f with
      | none => rfl
      | some e => exact ih e.children (by simp)


/-- C5.  Behaviour of `timing::end()`: a no-op when no event is active;
otherwise with `elapsed = now - start` of the current node, the duration
becomes `duration + elapsed` when the node's accumulate flag is set and
`elapsed` alone when not, the node becomes inactive, and `_current_event`
moves to the node's parent — the path shortened by one, none when the node
was a root. -/
theorem C5_end_event_spec :
    (∀ (now : ℚ) (s : timing_state), s.current_event = [] →
      timing.end_event now s = s) ∧
    (∀ (now : ℚ) (s : timing_state) (e : event_t),
      s.current_event ≠ [] → get_at s.current_event s.root_events = some e →
      get_at s.current_event (timing.end_event now s).root_events =
        some (event_t.mk e.start
          (if e.accumulate = true then e.duration + (now - e.start) else now - e.start)
          false e.accumulate e.children) ∧
      (timing.end_event now s).current_event = s.current_event.dropLast) := by
  constructor
  · intro now s h
    obtain ⟨roots, cur⟩ := s
    simp only at h
    subst h
    simp [timing.end_event]
  · intro now s e hne hget
    obtain ⟨roots, cur⟩ := s
    simp only at hne hget
    cases cur with
    | nil => exact absurd rfl hne
    | cons x tl =>
      have hstep : timing.end_event now ⟨roots, x :: tl⟩ =
          ⟨update_at (x :: tl) (timing.end_node now) roots, (x :: tl).dropLast⟩ := by
        simp [timing.end_event]
      rw [hstep]
      constructor
      · show get_at (x :: tl) (update_at (x :: tl) (timing.end_node now) roots) = _
        rw [get_at_update_at, hget]
        simp [timing.end_node]
      · rfl

/-- Witness for C5: ending the active root `A` (accumulate off, started at
`1`) at time `5` records duration `4`, deactivates it and clears the current
pointer; ending with nothing active changes nothing. -/
theorem C5_end_event_spec_witness :
    timing.end_event 5 ⟨[], []⟩ = ⟨[], []⟩ ∧
    get_at ["A"]
        (timing.end_event 5 ⟨[("A", event_t.mk 1 0 true false [])], ["A"]⟩).root_events =
      some (event_t.mk 1 4 false false []) ∧
    (timing.end_event 5
        ⟨[("A", event_t.mk 1 0 true false [])], ["A"]⟩).current_event = [] := by
  refine ⟨C5_end_event_spec.1 5 ⟨[], []⟩ rfl, ?_⟩
  have h := C5_end_event_spec.2 5 ⟨[("A", event_t.mk 1 0 true false [])], ["A"]⟩
    (event_t.mk 1 0 true false []) (by simp) (by simp [get_at, find_event])
  simp only [event_t.start, event_t.duration, event_t.active, event_t.accumulate,
    event_t.children] at h
  have h4 : (5 : ℚ) - 1 = 4 := by norm_num
  simpa [h4] using h

/-- C6 counterexample.  Start `A`, then call `start("A")` again: the event
that would be started is the child `A` under the active root `A`, which does
not even exist (so is not active); the claim therefore predicts no
`WrongEventState` in a debug build — yet the call throws, because the check
inspects the ROOT entry named `A`, which is active. -/
theorem C6_counterexample_check_not_on_target :
    timing.start 0 "A" false true timing_state.init =
      .ok ⟨[("A", event_t.mk 0 0 true false [])], ["A"]⟩ ∧
    get_at ["A", "A"] [("A", event_t.mk 0 0 true false [])] = none ∧
    timing.start 1 "A" false true ⟨[("A", event_t.mk 0 0 true false [])], ["A"]⟩ =
      .error () := by
  refine ⟨?_, ?_, ?_⟩ <;>
    simp [timing.start, timing.start_node, timing_state.init, ensure_event,
      find_event, modify_entry, event_t.ctor2, get_at, event_t.active,
      event_t.duration, event_t.children]

/-- C6 (amended).  In a debug build `start(name)` throws `wrong_event_state`
exactly when the ROOT map holds an active entry named `name` — regardless of
which node would actually be started.  A release build skips the check: the
call always succeeds, and the started node (root entry when nothing is
active, child entry under the current event otherwise, created if absent)
ends with start timestamp `now`, the given accumulate flag and the active
mark — the last start wins. -/
theorem C6_start_debug_check :
    (∀ (now : ℚ) (name : String) (acc : Bool) (s : timing_state),
      timing.start now name acc true s = .error () ↔
        (find_event name s.root_events).elim false event_t.active = true) ∧
    (∀ (now : ℚ) (name : String) (acc : Bool) (s : timing_state),
      ∃ t, timing.start now name acc false s = .ok t) ∧
    (∀ (now : ℚ) (name : String) (acc : Bool) (s t : timing_state),
      timing.start now name acc false s = .ok t →
      (s.current_event = [] ∨ (get_at s.current_event s.root_events).isSome = true) →
      t.current_event = s.current_event ++ [name] ∧
      ∃ d c, get_at (s.current_event ++ [name]) t.root_events =
        some (event_t.mk now d true acc c)) := by
  refine ⟨fun now name acc s => ?_, fun now name acc s => ?_,
    fun now name acc s t heq hval => ?_⟩
  · by_cases hcond : (find_event name s.root_events).elim false event_t.active = true
    · simp [timing.start, hcond]
    · cases hc : s.current_event <;> simp [timing.start, hcond, hc]
  · obtain ⟨roots, cur⟩ := s
    cases cur with
    | nil =>
      refine ⟨⟨modify_entry name (timing.start_node now acc)
        (ensure_event name roots), [name]⟩, ?_⟩
      simp [timing.start]
    | cons x tl =>
      refine ⟨⟨update_at (x :: tl)
        (fun e => event_t.mk e.start e.duration e.active e.accumulate
          (modify_entry name (timing.start_node now acc) (ensure_event name e.children)))
        roots, (x :: tl) ++ [name]⟩, ?_⟩
      simp [timing.start]
  · obtain ⟨roots, cur⟩ := s
    simp only at hval
    cases cur with
    | nil =>
      have hstep : timing.start now name acc false ⟨roots, []⟩ =
          .ok ⟨modify_entry name (timing.start_node now acc)
            (ensure_event name roots), [name]⟩ := by
        simp [timing.start]
      rw [hstep] at heq
      cases heq
      refine ⟨rfl, ?_⟩
      simp only [List.nil_append]
      rw [show get_at [name] (modify_entry name (timing.start_node now acc)
          (ensure_event name roots)) = find_event name (modify_entry name
          (timing.start_node now acc) (ensure_event name roots)) from rfl]
      rw [find_event_modify_self, find_event_ensure_self]
      exact ⟨_, _, rfl⟩
    | cons x tl =>
      have hstep : timing.start now name acc false ⟨roots, x :: tl⟩ =
          .ok ⟨update_at (x :: tl)
            (fun e => event_t.mk e.start e.duration e.active e.accumulate
              (modify_entry name (timing.start_node now acc)
                (ensure_event name e.children)))
            roots, (x :: tl) ++ [name]⟩ := by
        simp [timing.start]
      rw [hstep] at heq
      cases heq
      refine ⟨rfl, ?_⟩
      rcases hval with hval | hval
      · exact absurd hval (by simp)
      · rw [get_at_append_one _ _ _ (by simp)]
        rw [get_at_update_at]
        obtain ⟨e0, he0⟩ := Option.isSome_iff_exists.mp hval
        rw [he0]
        simp only [Option.map_some']
        rw [show (event_t.mk e0.start e0.duration e0.active e0.accumulate
            (modify_entry name (timing.start_node now acc)
              (ensure_event name e0.children))).children =
          modify_entry name (timing.start_node now acc)
            (ensure_event name e0.children) from rfl]
        rw [find_event_modify_self, find_event_ensure_self]
        exact ⟨_, _, rfl⟩

/-- Witness for C6: in a debug build, starting `B` on an empty profiler does
not throw (no root entry named `B` is active). -/
theorem C6_start_debug_check_witness :
    ¬ timing.start 2 "B" true true timing_state.init = .error () := by
  rw [C6_start_debug_check.1]
  simp [timing_state.init, find_event]

/-- C7 counterexample.  Register root `X`, start `A` (now active), then call
`event("X")`: the claim says the returned handle is scoped under the active
event `A`, but the source checks the root map first and returns the ROOT
entry `X` — path `[X]`, not `[A, X]` — leaving the state untouched. -/
theorem C7_counterexample_root_shadows_child :
    timing.start 0 "A" false false (timing.add "X" timing_state.init) =
      .ok ⟨[("X", event_t.ctor2 0 0), ("A", event_t.mk 0 0 true false [])], ["A"]⟩ ∧
    timing.event "X"
        ⟨[("X", event_t.ctor2 0 0), ("A", event_t.mk 0 0 true false [])], ["A"]⟩ =
      (["X"], ⟨[("X", event_t.ctor2 0 0), ("A", event_t.mk 0 0 true false [])], ["A"]⟩) ∧
    (["X"] : List String) ≠ ["A"] ++ ["X"] := by
  refine ⟨?_, ?_, by simp⟩ <;>
    simp [timing.start, timing.add, timing.start_node, timing.event,
      timing_state.init, ensure_event, find_event, modify_entry, event_t.ctor2,
      event_t.duration, event_t.children]

/-- C7 (amended).  `event(name)` returns the ROOT entry named `name` whenever
one exists, even while another event is active, leaving the state untouched;
only when no root entry carries the name does it scope the handle under the
currently active event (creating a zero-duration child if absent), and with
no active event it creates a fresh zero-duration root entry. -/
theorem C7_event_root_precedence :
    (∀ (name : String) (s : timing_state),
      (find_event name s.root_events).isSome = true →
      timing.event name s = ([name], s)) ∧
    (∀ (name : String) (s : timing_state),
      find_event name s.root_events = none → s.current_event = [] →
      (timing.event name s).1 = [name] ∧
      find_event name (timing.event name s).2.root_events = some (event_t.ctor2 0 0) ∧
      (timing.event name s).2.current_event = []) ∧
    (∀ (name : String) (s : timing_state) (e : event_t),
      find_event name s.root_events = none → s.current_event ≠ [] →
      get_at s.current_event s.root_events = some e →
      (timing.event name s).1 = s.current_event ++ [name] ∧
      get_at (s.current_event ++ [name]) (timing.event name s).2.root_events =
        some ((find_event name e.children).getD (event_t.ctor2 0 0)) ∧
      (timing.event name s).2.current_event = s.current_event) := by
  refine ⟨fun name s h => ?_, fun name s hnone hcur => ?_,
    fun name s e hnone hcur hget => ?_⟩
  · simp [timing.event, h]
  · obtain ⟨roots, cur⟩ := s
    simp only at hnone hcur
    subst hcur
    have hstep : timing.event name ⟨roots, []⟩ =
        ([name], ⟨roots ++ [(name, event_t.ctor2 0 0)], []⟩) := by
      simp [timing.event, hnone]
    rw [hstep]
    refine ⟨rfl, ?_, rfl⟩
    simp [find_event_append, hnone, find_event]
  · obtain ⟨roots, cur⟩ := s
    simp only at hnone hcur hget
    cases cur with
    | nil => exact absurd rfl hcur
    | cons x tl =>
      have hstep : timing.event name ⟨roots, x :: tl⟩ =
          ((x :: tl) ++ [name], ⟨update_at (x :: tl)
            (fun e => event_t.mk e.start e.duration e.active e.accumulate
              (ensure_event name e.children)) roots, x :: tl⟩) := by
        simp [timing.event, hnone]
      rw [hstep]
      refine ⟨rfl, ?_, rfl⟩
      rw [get_at_append_one _ _ _ (by simp), get_at_update_at, hget]
      simp only [Option.map_some']
      rw [show (event_t.mk e.start e.duration e.active e.accumulate
          (ensure_event name e.children)).children =
        ensure_event name e.children from rfl]
      rw [find_event_ensure_self]

/-- Witness for C7: with root `R` present and nothing active, `event("R")`
returns the root handle and leaves the state unchanged. -/
theorem C7_event_root_precedence_witness :
    timing.event "R" ⟨[("R", event_t.ctor2 3 9)], []⟩ =
      (["R"], ⟨[("R", event_t.ctor2 3 9)], []⟩) :=
  C7_event_root_precedence.1 "R" ⟨[("R", event_t.ctor2 3 9)], []⟩ (by simp [find_event])

/-! ## Helper lemmas for window ownership -/

/-- Appending splits slot counts. -/
theorem count_opt_append (a : Option ℕ) (l r : List (Option ℕ)) :
    count_opt a (l ++ r) = count_opt a l + count_opt a r := by
  induction l with
  | nil => simp [count_opt]
  | cons x xs ih => simp [count_opt, ih]; omega

/-- Appending splits freed counts. -/
theorem count_nat_append (a : ℕ) (l r : List ℕ) :
    count_nat a (l ++ r) = count_nat a l + count_nat a r := by
  induction l with
  | nil => simp [count_nat]
  | cons x xs ih => simp [count_nat, ih]; omega

/-- Counting through `List.set`: replacing position `n` by `v` trades the old
occupant (read with default `v`, making this an identity out of range) for
`v`. -/
theorem count_opt_set (l : List (Option ℕ)) (n : ℕ) (v a : Option ℕ) :
    count_opt a (l.set n v) + (if l.getD n v = a then 1 else 0) =
      count_opt a l + (if v = a then 1 else 0) := by
  induction l generalizing n with
  | nil => simp [count_opt]
  | cons x xs ih =>
    cases n with
    | zero => simp [count_opt]; omega
    | succ k =>
      simp only [List.set_cons_succ, count_opt, List.getD_cons_succ]
      have := ih k
      omega

/-- Reading out of range yields the `none` default. -/
theorem getD_eq_none_of_ge (l : List (Option ℕ)) (n : ℕ) (h : l.length ≤ n) :
    l.getD n none = none := by
  induction l generalizing n with
  | nil => simp [List.getD]
  | cons x xs ih =>
    cases n with
    | zero => simp at h
    | succ k =>
      simp only [List.getD_cons_succ]
      exact ih k (by simpa using h)

/-- Reading the position just written. -/
theorem getD_set_self (l : List (Option ℕ)) (n : ℕ) (v : Option ℕ) :
    (l.set n v).getD n none = if n < l.length then v else none := by
  induction l generalizing n with
  | nil => simp [List.getD]
  | cons x xs ih =>
    cases n with
    | zero => simp [List.getD]
    | succ k =>
      simp only [List.set_cons_succ, List.getD_cons_succ, List.length_cons]
      rw [ih k]
      by_cases hk : k < xs.length
      · rw [if_pos hk, if_pos (by omega)]
      · rw [if_neg hk, if_neg (by omega)]

/-- Writing `none` clears the position (also trivially out of range). -/
theorem getD_set_none_self (l : List (Option ℕ)) (n : ℕ) :
    (l.set n none).getD n none = none := by
  rw [getD_set_self]
  split <;> rfl

/-- Writing one position does not change a read at another. -/
theorem getD_set_ne (l : List (Option ℕ)) (n m : ℕ) (v : Option ℕ) (h : n ≠ m) :
    (l.set n v).getD m none = l.getD m none := by
  induction l generalizing n m with
  | nil => simp
  | cons x xs ih =>
    cases n with
    | zero =>
      cases m with
      | zero => exact absurd rfl h
      | succ j => simp
    | succ k =>
      cases m with
      | zero => simp
      | succ j => simpa using ih k j (by omega)

/-- Reading below the length of the left part of an append. -/
theorem getD_append_lt (l : List (Option ℕ)) (x : Option ℕ) (n : ℕ)
    (h : n < l.length) :
    (l ++ [x]).getD n none = l.getD n none := by
  induction l generalizing n with
  | nil => simp at h
  | cons y ys ih =>
    cases n with
    | zero => simp
    | succ k => simpa using ih k (by simpa using h)

/-- Reading the appended element. -/
theorem getD_append_len (l : List (Option ℕ)) (x : Option ℕ) :
    (l ++ [x]).getD l.length none = x := by
  induction l with
  | nil => simp [List.getD]
  | cons y ys ih => simp [ih]

/-- Reading at or past the left length when the appended element is `none`. -/
theorem getD_append_none_ge (l : List (Option ℕ)) (n : ℕ) (h : l.length ≤ n) :
    (l ++ [none]).getD n none = none := by
  rcases Nat.eq_or_lt_of_le h with heq | hlt
  · rw [← heq, getD_append_len]
  · refine getD_eq_none_of_ge _ _ ?_
    simp
    omega

/-- One special-member call never increases the combined number of live
owners of a window and completed frees of it: move construction transfers
ownership exactly, move assignment transfers it and may drop the
destination's old window (a leak, never a free), and the destructor trades
one ownership for one free. -/
theorem seg_step_owners_freed_le (w : seg_world) (op : seg_op) (win : ℕ) :
    owners (seg_step w op) win + freed_count (seg_step w op) win ≤
      owners w win + freed_count w win := by
  obtain ⟨segs, freed⟩ := w
  cases op with
  | move_construct src =>
    have h1 := count_opt_set segs src none (some win)
    simp only [seg_step, owners, freed_count, count_opt_append, count_opt] at *
    by_cases hd : segs.getD src none = some win <;> simp [hd] at h1 ⊢ <;> omega
  | move_assign src dst =>
    have h1 := count_opt_set (segs.set dst (segs.getD src none)) src none (some win)
    have h2 := count_opt_set segs dst (segs.getD src none) (some win)
    have hnone : (if (none : Option ℕ) = some win then 1 else 0) = 0 := by simp
    rw [hnone] at h1
    simp only [seg_step, owners, freed_count]
    by_cases hvw : segs.getD src none = some win
    · have hsrc_lt : src < segs.length := by
        by_contra hge
        rw [getD_eq_none_of_ge segs src (by omega)] at hvw
        exact Option.noConfusion hvw
      have hA : (segs.set dst (segs.getD src none)).getD src none = some win := by
        by_cases hsd : src = dst
        · subst hsd
          rw [getD_set_self, if_pos hsrc_lt]
          exact hvw
        · rw [getD_set_ne segs dst src _ (fun hc => hsd hc.symm)]
          exact hvw
      have hAite : (if (segs.set dst (segs.getD src none)).getD src none = some win
          then 1 else 0) = 1 := by
        rw [hA]
        simp
      have hvite : (if segs.getD src none = some win then 1 else 0) = 1 := by
        rw [hvw]
        simp
      rw [hAite] at h1
      rw [hvite] at h2
      omega
    · have hvite : (if segs.getD src none = some win then 1 else 0) = 0 :=
        if_neg hvw
      rw [hvite] at h2
      omega
  | destruct i =>
    cases hgd : segs.getD i none with
    | some win0 =>
      have h1 := count_opt_set segs i none (some win)
      rw [hgd] at h1
      simp only [seg_step, hgd, owners, freed_count, count_nat_append, count_nat]
      by_cases hw : win0 = win <;> simp [hw] at h1 ⊢ <;> omega
    | none =>
      simp only [seg_step]
      rw [hgd]

/-- Running any sequence of special-member calls keeps the combined
owner-and-freed count of every window bounded by its initial value. -/
theorem seg_run_owners_freed_le (ops : List seg_op) (w : seg_world) (win : ℕ) :
    owners (ops.foldl seg_step w) win + freed_count (ops.foldl seg_step w) win ≤
      owners w win + freed_count w win := by
  induction ops generalizing w with
  | nil => simp
  | cons op rest ih =>
    calc owners ((op :: rest).foldl seg_step w) win +
          freed_count ((op :: rest).foldl seg_step w) win =
        owners (rest.foldl seg_step (seg_step w op)) win +
          freed_count (rest.foldl seg_step (seg_step w op)) win := by rfl
      _ ≤ owners (seg_step w op) win + freed_count (seg_step w op) win := ih _
      _ ≤ owners w win + freed_count w win := seg_step_owners_freed_le w op win

/-- C8.  The `shared_object` wrapper is move-only with at most one live owner
per window: move construction hands the source's window to the new object
and leaves the source in the `MPI_WIN_NULL` sentinel state; move assignment
does the same into the destination; the destructor frees the window exactly
when the handle still owns one — a moved-from object's destructor frees
nothing — and along any sequence of special-member calls a window that
starts uniquely owned is freed at most once.  (Copy construction and copy
assignment are deleted in the source, so `seg_op` affords no copy.) -/
theorem C8_shared_object_move_only_ownership :
    (∀ (w : seg_world) (src : ℕ),
      (seg_step w (.move_construct src)).segs.getD src none = none ∧
      (seg_step w (.move_construct src)).segs.getD w.segs.length none =
        w.segs.getD src none ∧
      (seg_step w (.move_construct src)).freed = w.freed) ∧
    (∀ (w : seg_world) (src dst : ℕ), src ≠ dst →
      (seg_step w (.move_assign src dst)).segs.getD dst none =
        (if dst < w.segs.length then w.segs.getD src none else none) ∧
      (seg_step w (.move_assign src dst)).segs.getD src none = none ∧
      (seg_step w (.move_assign src dst)).freed = w.freed) ∧
    (∀ (w : seg_world) (i win : ℕ), w.segs.getD i none = some win →
      seg_step w (.destruct i) = ⟨w.segs.set i none, w.freed ++ [win]⟩) ∧
    (∀ (w : seg_world) (i : ℕ), w.segs.getD i none = none →
      seg_step w (.destruct i) = w) ∧
    (∀ (ops : List seg_op) (w : seg_world) (win : ℕ),
      owners w win + freed_count w win ≤ 1 →
      freed_count (ops.foldl seg_step w) win ≤ 1) := by
  refine ⟨fun w src => ⟨?_, ?_, rfl⟩, fun w src dst hne => ⟨?_, ?_, rfl⟩,
    fun w i win h => ?_, fun w i h => ?_, fun ops w win h => ?_⟩
  · show ((w.segs.set src none) ++ [w.segs.getD src none]).getD src none = none
    rcases Nat.lt_or_ge src w.segs.length with hlt | hge
    · rw [getD_append_lt _ _ _ (by simpa using hlt), getD_set_none_self]
    · rw [getD_eq_none_of_ge _ _ hge]
      refine getD_append_none_ge _ _ ?_
      simpa using hge
  · show ((w.segs.set src none) ++ [w.segs.getD src none]).getD w.segs.length none =
      w.segs.getD src none
    have hlen : w.segs.length = (w.segs.set src none).length := by simp
    rw [hlen, getD_append_len]
  · show ((w.segs.set dst (w.segs.getD src none)).set src none).getD dst none = _
    rw [getD_set_ne _ _ _ _ hne, getD_set_self]
  · exact getD_set_none_self _ _
  · simp only [seg_step]
    rw [h]
  · simp only [seg_step]
    rw [h]
  · have := seg_run_owners_freed_le ops w win
    omega

/-- Witness for C8: one segment owning window 7 is moved from, then both the
moved-from and the new object are destroyed; window 7 is freed exactly once
overall. -/
theorem C8_shared_object_move_only_ownership_witness :
    freed_count
      ([seg_op.move_construct 0, seg_op.destruct 0, seg_op.destruct 1].foldl
        seg_step ⟨[some 7], []⟩) 7 ≤ 1 :=
  C8_shared_object_move_only_ownership.2.2.2.2
    [seg_op.move_construct 0, seg_op.destruct 0, seg_op.destruct 1]
    ⟨[some 7], []⟩ 7 (by simp [owners, freed_count, count_opt, count_nat])

end GreenUtils
